import Mathlib

/-
  Verification of the vmj runtime (src/main.cpp, src/ast.h, src/ast.cpp).

  The development shallowly embeds, in order:
  * the register VM and its interpreter loop (VM::interpret, src/main.cpp:525-574);
  * the architectural effect of the code the JIT emits per VM instruction
    (Jit::compile_* and the Assembler, src/main.cpp:213-508);
  * the page-protection lifecycle of the executable region (src/main.cpp:187-211);
  * the AST, its textual dumper and the tree interpreter (src/ast.h, src/ast.cpp);
  * the byte-level JIT emission and fixup-patching phases (src/main.cpp:445-504).

  Machine integers are modelled as Nat (u64) and Int (C++ int), with explicit
  reductions modulo 2^64 or 2^32 exactly where the C++ arithmetic wraps.
-/

namespace VMJ

/-- The modulus of the C++ u64 type (VM_Value, VM_Register, VM_Local). -/
def U64 : Nat := 2 ^ 64

/-! ## VM instruction set (struct Instruction and subclasses, src/main.cpp:53-185)

A C++ Jump holds a `BasicBlock &`; blocks live in `Program::blocks` in creation
order and are never moved, so a block reference is modelled as the index of the
block in the program. Register/local/value operands are u64 fields. -/

inductive Instr where
  | exit
  | loadImmediate (value : Nat)
  | load (reg : Nat)
  | store (reg : Nat)
  | setLocal (localIdx : Nat)
  | getLocal (localIdx : Nat)
  | increment
  | jump (target : Nat)
  | jumpConditional (trueBlock falseBlock : Nat)
  | lessThan (lhs : Nat)
  deriving DecidableEq, Repr

/-- A Program is an ordered sequence of basic blocks, each an ordered sequence
of instructions (struct Program / struct BasicBlock, src/main.cpp:77-105). -/
def Program := List (List Instr)

/-- The instruction list of block `b` (empty when `b` is out of range; in C++ a
block reference can only denote an existing block). -/
def blockAt (p : Program) (b : Nat) : List Instr := (List.get? p b).getD []

/-- The instruction at index `i` of block `b`, when it exists. -/
def instrAt (p : Program) (b i : Nat) : Option Instr := List.get? (blockAt p b) i

/-- Pointwise update of a slot file. Register and local arrays are modelled as
total maps from index to u64 value; VM::interpret indexes std::vector without
bounds checks, and every claim below only exercises in-range indices. -/
def upd (f : Nat → Nat) (i v : Nat) : Nat → Nat := fun j => if j = i then v else f j

/-- Interpreter state: VM::interpret's `current_block` (as an index),
`instruction_index`, and the VM's register and local arrays. -/
structure VMState where
  blockIdx : Nat
  instrIdx : Nat
  registers : Nat → Nat
  locals : Nat → Nat

/-- The interpreter loop has exited: `instruction_index` walked past the end of
the current block (src/main.cpp:529-531). -/
def VMState.halted (p : Program) (s : VMState) : Prop :=
  (blockAt p s.blockIdx).length ≤ s.instrIdx

instance (p : Program) (s : VMState) : Decidable (s.halted p) :=
  inferInstanceAs (Decidable (_ ≤ _))

/-- One iteration of the `for (;;)` loop of VM::interpret (src/main.cpp:528-573).
A halted state is left unchanged (the loop has broken out).  Note that the
`case Instruction::Type::Exit: break;` in the C++ switch only leaves the
switch statement: after an Exit, `instruction_index` is incremented and the
loop continues with the next instruction of the same block. -/
def vmStep (p : Program) (s : VMState) : VMState :=
  match instrAt p s.blockIdx s.instrIdx with
  | none => s
  | some instr =>
    match instr with
    | .loadImmediate v =>
        { s with registers := upd s.registers 0 v, instrIdx := s.instrIdx + 1 }
    | .load r =>
        { s with registers := upd s.registers 0 (s.registers r), instrIdx := s.instrIdx + 1 }
    | .store r =>
        { s with registers := upd s.registers r (s.registers 0), instrIdx := s.instrIdx + 1 }
    | .setLocal l =>
        { s with locals := upd s.locals l (s.registers 0), instrIdx := s.instrIdx + 1 }
    | .getLocal l =>
        { s with registers := upd s.registers 0 (s.locals l), instrIdx := s.instrIdx + 1 }
    | .increment =>
        { s with registers := upd s.registers 0 ((s.registers 0 + 1) % U64),
                 instrIdx := s.instrIdx + 1 }
    | .lessThan lhs =>
        { s with registers := upd s.registers 0 (if s.registers lhs < s.registers 0 then 1 else 0),
                 instrIdx := s.instrIdx + 1 }
    | .jump t =>
        { s with blockIdx := t, instrIdx := 0 }
    | .jumpConditional tb fb =>
        { s with blockIdx := if s.registers 0 ≠ 0 then tb else fb, instrIdx := 0 }
    | .exit =>
        { s with instrIdx := s.instrIdx + 1 }

/-- Iterate the interpreter loop `n` times. -/
def vmSteps (p : Program) : Nat → VMState → VMState
  | 0, s => s
  | n + 1, s => vmSteps p n (vmStep p s)

theorem vmSteps_add (p : Program) (m n : Nat) (s : VMState) :
    vmSteps p (m + n) s = vmSteps p n (vmSteps p m s) := by
  induction m generalizing s with
  | zero => simp [vmSteps]
  | succ k ih =>
      have : k + 1 + n = (k + n) + 1 := by omega
      rw [this]
      show vmSteps p (k + n) (vmStep p s) = _
      rw [ih]
      rfl

theorem vmStep_halted (p : Program) (s : VMState) (h : s.halted p) : vmStep p s = s := by
  unfold vmStep
  have : instrAt p s.blockIdx s.instrIdx = none := by
    unfold instrAt
    exact List.get?_eq_none.mpr h
  rw [this]

/-- The all-zero initial state used by main(): registers and locals arrays are
zero-initialized by std::vector::resize, execution starts at the first block. -/
def initState : VMState :=
  { blockIdx := 0, instrIdx := 0, registers := fun _ => 0, locals := fun _ => 0 }

/-! ## The six-block counting-loop CFG built by main() (src/main.cpp:590-626)

C++ blocks 1..6 become indices 0..5.  main() uses 10000000 as the LessThan
bound; the spec scenario S5 runs the same CFG with LoadImmediate 1000000, so
the bound is a parameter here. -/

def mkLoopProgram (bound : Nat) : Program :=
  [ [.store 5, .loadImmediate 0, .setLocal 0, .load 5, .loadImmediate 0, .store 6, .jump 3],
    [.exit],
    [.loadImmediate 0, .jump 4],
    [.getLocal 0, .store 7, .loadImmediate bound, .lessThan 7, .jumpConditional 2 5],
    [.store 6, .getLocal 0, .increment, .setLocal 0, .jump 3],
    [.load 6, .jump 1] ]

/-- One trip around the counting loop: from the head of block 3 with
locals[0] = k and registers[6] = 0, twelve interpreter steps (block 3, block 2,
block 4) return to the head of block 3 with locals[0] = k + 1. -/
theorem loop_iteration (bound k : Nat) (regs locals : Nat → Nat)
    (h6 : regs 6 = 0) (hl : locals 0 = k) (hk : k < bound) (hb : bound < U64) :
    (vmSteps (mkLoopProgram bound) 12 ⟨3, 0, regs, locals⟩).blockIdx = 3 ∧
    (vmSteps (mkLoopProgram bound) 12 ⟨3, 0, regs, locals⟩).instrIdx = 0 ∧
    (vmSteps (mkLoopProgram bound) 12 ⟨3, 0, regs, locals⟩).registers 6 = 0 ∧
    (vmSteps (mkLoopProgram bound) 12 ⟨3, 0, regs, locals⟩).locals 0 = k + 1 := by
  have hmod : (k + 1) % U64 = k + 1 := Nat.mod_eq_of_lt (by omega)
  refine ⟨?_, ?_, ?_, ?_⟩ <;>
    simp [vmSteps, vmStep, instrAt, blockAt, mkLoopProgram, upd, hl, h6, hk, hmod]

/-- Running the loop from the head of block 3 with locals[0] = k and
registers[6] = 0 eventually halts with locals[0] = bound and
registers[6] = 0. -/
theorem loop_runs (bound : Nat) (hb : bound < U64) :
    ∀ j k regs locals, k + j = bound → regs 6 = 0 → locals 0 = k →
    ∃ n, (vmSteps (mkLoopProgram bound) n ⟨3, 0, regs, locals⟩).halted (mkLoopProgram bound) ∧
         (vmSteps (mkLoopProgram bound) n ⟨3, 0, regs, locals⟩).locals 0 = bound ∧
         (vmSteps (mkLoopProgram bound) n ⟨3, 0, regs, locals⟩).registers 6 = 0 := by
  intro j
  induction j with
  | zero =>
      intro k regs locals hkb h6 hl
      have hk : k = bound := by omega
      subst hk
      refine ⟨8, ?_, ?_, ?_⟩ <;>
        simp [vmSteps, vmStep, instrAt, blockAt, mkLoopProgram, upd, hl, h6,
              VMState.halted, Nat.lt_irrefl]
  | succ j ih =>
      intro k regs locals hkb h6 hl
      have hk : k < bound := by omega
      obtain ⟨hb3, hi0, hr6, hl0⟩ := loop_iteration bound k regs locals h6 hl hk hb
      set s12 := vmSteps (mkLoopProgram bound) 12 ⟨3, 0, regs, locals⟩ with hs12
      have hs : s12 = ⟨3, 0, s12.registers, s12.locals⟩ := by
        cases hq : s12
        simp only [hq] at hb3 hi0
        simp [hb3, hi0]
      obtain ⟨n, hn1, hn2, hn3⟩ :=
        ih (k + 1) s12.registers s12.locals (by omega) hr6 hl0
      refine ⟨12 + n, ?_, ?_, ?_⟩ <;>
        rw [vmSteps_add, ← hs12, hs] <;> assumption

/-- The state of the interpreter after the seven instructions of block 0. -/
theorem loop_prologue (bound : Nat) :
    (vmSteps (mkLoopProgram bound) 7 initState).blockIdx = 3 ∧
    (vmSteps (mkLoopProgram bound) 7 initState).instrIdx = 0 ∧
    (vmSteps (mkLoopProgram bound) 7 initState).registers 6 = 0 ∧
    (vmSteps (mkLoopProgram bound) 7 initState).locals 0 = 0 := by
  refine ⟨?_, ?_, ?_, ?_⟩ <;>
    simp [vmSteps, vmStep, instrAt, blockAt, mkLoopProgram, upd, initState]

/-- C7: Running the six-block counting-loop CFG with LoadImmediate 1000000 as
the upper bound through the VM interpreter, from all-zero register and locals
arrays, terminates with locals[0] = 1000000 and registers[6] = 0. -/
theorem C7_counting_loop_vm :
    ∃ n, (vmSteps (mkLoopProgram 1000000) n initState).halted (mkLoopProgram 1000000) ∧
         (vmSteps (mkLoopProgram 1000000) n initState).locals 0 = 1000000 ∧
         (vmSteps (mkLoopProgram 1000000) n initState).registers 6 = 0 := by
  obtain ⟨hb3, hi0, hr6, hl0⟩ := loop_prologue 1000000
  set s7 := vmSteps (mkLoopProgram 1000000) 7 initState with hs7
  have hs : s7 = ⟨3, 0, s7.registers, s7.locals⟩ := by
    cases hq : s7
    simp only [hq] at hb3 hi0
    simp [hb3, hi0]
  obtain ⟨n, hn1, hn2, hn3⟩ :=
    loop_runs 1000000 (by norm_num [U64]) 1000000 0 s7.registers s7.locals
      (by omega) hr6 hl0
  refine ⟨7 + n, ?_, ?_, ?_⟩ <;>
    rw [vmSteps_add, ← hs7, hs] <;> assumption

/-! ## Frame effect of a single interpreter step -/

/-- The register slot (if any) an instruction writes in VM::interpret:
LoadImmediate, Load, GetLocal, Increment and LessThan write registers[0];
Store reg writes registers[reg]; nothing else writes a register. -/
def writesReg : Instr → Option Nat
  | .loadImmediate _ => some 0
  | .load _ => some 0
  | .getLocal _ => some 0
  | .increment => some 0
  | .lessThan _ => some 0
  | .store r => some r
  | _ => none

/-- The local slot (if any) an instruction writes in VM::interpret:
only SetLocal writes a local. -/
def writesLocal : Instr → Option Nat
  | .setLocal l => some l
  | _ => none

/-- C10: Each VM interpreter step mutates at most one slot: a step executing
instruction i leaves every register slot other than the one named by
writesReg i unchanged, and every local slot other than the one named by
writesLocal i unchanged (and Jump, JumpConditional and Exit name none). -/
theorem upd_ne (f : Nat → Nat) (i v j : Nat) (h : j ≠ i) : upd f i v j = f j := if_neg h

theorem C10_vm_step_frame (p : Program) (s : VMState) (i : Instr)
    (hi : instrAt p s.blockIdx s.instrIdx = some i) (j : Nat) :
    (writesReg i ≠ some j → (vmStep p s).registers j = s.registers j) ∧
    (writesLocal i ≠ some j → (vmStep p s).locals j = s.locals j) := by
  unfold vmStep
  rw [hi]
  cases i with
  | exit => exact ⟨fun _ => rfl, fun _ => rfl⟩
  | loadImmediate v =>
      exact ⟨fun hne => upd_ne s.registers 0 v j (fun h => hne (by rw [h]; rfl)), fun _ => rfl⟩
  | load r =>
      exact ⟨fun hne => upd_ne s.registers 0 _ j (fun h => hne (by rw [h]; rfl)), fun _ => rfl⟩
  | store r =>
      exact ⟨fun hne => upd_ne s.registers r _ j (fun h => hne (by rw [h]; rfl)), fun _ => rfl⟩
  | setLocal l =>
      exact ⟨fun _ => rfl, fun hne => upd_ne s.locals l _ j (fun h => hne (by rw [h]; rfl))⟩
  | getLocal l =>
      exact ⟨fun hne => upd_ne s.registers 0 _ j (fun h => hne (by rw [h]; rfl)), fun _ => rfl⟩
  | increment =>
      exact ⟨fun hne => upd_ne s.registers 0 _ j (fun h => hne (by rw [h]; rfl)), fun _ => rfl⟩
  | lessThan lhs =>
      exact ⟨fun hne => upd_ne s.registers 0 _ j (fun h => hne (by rw [h]; rfl)), fun _ => rfl⟩
  | jump t => exact ⟨fun _ => rfl, fun _ => rfl⟩
  | jumpConditional tb fb => exact ⟨fun _ => rfl, fun _ => rfl⟩

/-- Witness for C10 at a concrete step: an Increment step leaves
registers[1] untouched. -/
theorem C10_vm_step_frame_witness :
    (vmStep [[Instr.increment]] initState).registers 1 = initState.registers 1 :=
  (C10_vm_step_frame [[Instr.increment]] initState Instr.increment rfl 1).1 (by decide)

/-- C3 evidence: the interpreter does not halt at an Exit instruction.  In the
block [Exit, LoadImmediate 7], the LoadImmediate after the Exit is executed
(the switch-level break in VM::interpret only leaves the switch), so the run
ends with registers[0] = 7 instead of 0. -/
theorem C3_exit_falls_through :
    (vmSteps [[Instr.exit, Instr.loadImmediate 7]] 2 initState).registers 0 = 7 ∧
    (vmSteps [[Instr.exit, Instr.loadImmediate 7]] 2 initState).halted
      [[Instr.exit, Instr.loadImmediate 7]] := by
  constructor <;> decide

/-! ## Architectural effect of the JIT-compiled code

Jit::compile (src/main.cpp:445-504) lowers each VM instruction to a fixed
x86-64 sequence through the Assembler (src/main.cpp:213-395), laying blocks
out in program order.  The model below gives each compiled VM instruction the
architectural meaning of its emitted bytes, at one model step per VM
instruction; RAX and RCX are the scratch registers the sequences use.

The one semantic difference from VM::interpret is LessThan:
Assembler::less_than (src/main.cpp:352-368) emits CMP (48 39 /r) followed by
SETL (0F 9C), and SETL is the SIGNED less-than condition (SF ≠ OF), whereas
the interpreter compares unsigned u64 values. -/

/-- Two's-complement reading of a u64 value, the ordering SETL decides. -/
def toSigned (x : Nat) : Int := if x < 2 ^ 63 then (x : Int) else (x : Int) - (2 ^ 64 : Int)

/-- Machine state while executing the JIT blob: position in the emitted code
(block index and instruction index within it), the RAX/RCX scratch registers,
the VM register and local arrays reached through RSI/RDX, and whether the
blob has returned (RET). -/
structure JitState where
  blockIdx : Nat
  instrIdx : Nat
  rax : Nat
  rcx : Nat
  registers : Nat → Nat
  locals : Nat → Nat
  halted : Bool

/-- Execute the code compiled for one VM instruction.  `none` models running
past the end of the emitted buffer (undefined behavior); walking past the end
of a non-final block falls through into the code of the next block, since the
blocks are laid out contiguously in program order. -/
def jitStep (p : Program) (s : JitState) : Option JitState :=
  if s.halted then some s else
  match instrAt p s.blockIdx s.instrIdx with
  | none =>
      if s.blockIdx + 1 < List.length p then
        some { s with blockIdx := s.blockIdx + 1, instrIdx := 0 }
      else none
  | some instr =>
    match instr with
    | .loadImmediate v =>
        -- mov rax, imm64 v; mov [rsi + 0], rax
        some { s with rax := v, registers := upd s.registers 0 v,
                      instrIdx := s.instrIdx + 1 }
    | .load r =>
        -- mov rax, [rsi + 8r]; mov [rsi + 0], rax
        some { s with rax := s.registers r, registers := upd s.registers 0 (s.registers r),
                      instrIdx := s.instrIdx + 1 }
    | .store r =>
        -- mov rax, [rsi + 0]; mov [rsi + 8r], rax
        some { s with rax := s.registers 0, registers := upd s.registers r (s.registers 0),
                      instrIdx := s.instrIdx + 1 }
    | .setLocal l =>
        -- mov rax, [rsi + 0]; mov [rdx + 8l], rax
        some { s with rax := s.registers 0, locals := upd s.locals l (s.registers 0),
                      instrIdx := s.instrIdx + 1 }
    | .getLocal l =>
        -- mov rax, [rdx + 8l]; mov [rsi + 0], rax
        some { s with rax := s.locals l, registers := upd s.registers 0 (s.locals l),
                      instrIdx := s.instrIdx + 1 }
    | .increment =>
        -- mov rax, [rsi + 0]; inc rax; mov [rsi + 0], rax
        some { s with rax := (s.registers 0 + 1) % U64,
                      registers := upd s.registers 0 ((s.registers 0 + 1) % U64),
                      instrIdx := s.instrIdx + 1 }
    | .lessThan lhs =>
        -- mov rax, [rsi + 8*lhs]; mov rcx, [rsi + 0]; cmp rax, rcx; setl al;
        -- movzx rax, al; mov [rsi + 0], rax  -- SETL: signed comparison
        some { s with rax := if toSigned (s.registers lhs) < toSigned (s.registers 0) then 1 else 0,
                      rcx := s.registers 0,
                      registers := upd s.registers 0
                        (if toSigned (s.registers lhs) < toSigned (s.registers 0) then 1 else 0),
                      instrIdx := s.instrIdx + 1 }
    | .jump t =>
        -- jmp rel32 (patched to the target block's offset)
        some { s with blockIdx := t, instrIdx := 0 }
    | .jumpConditional tb fb =>
        -- mov rax, [rsi + 0]; cmp rax, 0; je false_target; jmp true_target
        some { s with rax := s.registers 0,
                      blockIdx := if s.registers 0 ≠ 0 then tb else fb, instrIdx := 0 }
    | .exit =>
        -- ret
        some { s with halted := true }

/-- Iterate the JIT blob `n` compiled-instruction steps. -/
def jitSteps (p : Program) : Nat → JitState → Option JitState
  | 0, s => some s
  | n + 1, s => (jitStep p s).bind (jitSteps p n)

/-- Entry state of the compiled blob: execution starts at the first emitted
block, RAX/RCX hold unspecified values (taken as 0 here), and the register
and local arrays are those the caller passes in RSI/RDX. -/
def jitInit : JitState :=
  { blockIdx := 0, instrIdx := 0, rax := 0, rcx := 0,
    registers := fun _ => 0, locals := fun _ => 0, halted := false }

/-- A one-block program that stores 2^63 in register 1 and then runs
LessThan 1 with accumulator 0, ending in Exit. -/
def signedLtProgram : Program :=
  [[.loadImmediate (2 ^ 63), .store 1, .loadImmediate 0, .lessThan 1, .exit]]

/-- C1 evidence: the interpreter and the JIT disagree on LessThan for operands
at or above 2^63.  On signedLtProgram, both runs terminate via Exit, but the
interpreter's unsigned comparison leaves registers[0] = 0 (2^63 < 0 is false
on u64) while the JIT's SETL leaves registers[0] = 1 (−2^63 < 0 as signed). -/
theorem C1_jit_signed_lessThan_divergence :
    (vmSteps signedLtProgram 5 initState).halted signedLtProgram ∧
    (vmSteps signedLtProgram 5 initState).registers 0 = 0 ∧
    (vmSteps signedLtProgram 5 initState).registers 1 = 2 ^ 63 ∧
    Option.map (fun js => (js.halted, js.registers 0, js.registers 1))
        (jitSteps signedLtProgram 5 jitInit)
      = some (true, 1, 2 ^ 63) := by
  refine ⟨?_, ?_, ?_, ?_⟩ <;> decide

/-! ## Executable memory protections (struct Executable, src/main.cpp:187-211) -/

/-- The POSIX protection bits used by the mmap/mprotect calls. -/
def PROT_READ : Nat := 1

def PROT_WRITE : Nat := 2

def PROT_EXEC : Nat := 4

/-- Protection flags Executable::Executable passes to mmap when the region is
allocated: PROT_READ | PROT_WRITE | PROT_EXEC (src/main.cpp:190). -/
def executableAllocProt : Nat := PROT_READ ||| PROT_WRITE ||| PROT_EXEC

/-- Protection flags Executable::finalize passes to mprotect:
PROT_READ | PROT_EXEC (src/main.cpp:204). -/
def executableFinalProt : Nat := PROT_READ ||| PROT_EXEC

/-- The successive protections of the executable region over the
compile-install sequence of Jit::compile: the allocation protection is in
force while the code buffer is copied in (src/main.cpp:501), and finalize()
switches to the final protection afterwards (src/main.cpp:502). -/
def compileProtTrace : List Nat := [executableAllocProt, executableFinalProt]

/-- C2 evidence: the region is not allocated read/write-only — the mmap in
Executable::Executable requests PROT_READ | PROT_WRITE | PROT_EXEC, so the
region is simultaneously writable and executable from allocation until
finalize(), the whole time the buffer is being copied in. -/
theorem C2_alloc_is_writable_and_executable :
    executableAllocProt ≠ (PROT_READ ||| PROT_WRITE) ∧
    List.get? compileProtTrace 0 = some executableAllocProt ∧
    executableAllocProt &&& PROT_WRITE ≠ 0 ∧
    executableAllocProt &&& PROT_EXEC ≠ 0 := by
  refine ⟨?_, ?_, ?_, ?_⟩ <;> decide

/-! ## The AST, its dumper and the tree interpreter (src/ast.h, src/ast.cpp)

In the C++ hierarchy, Ast::Increment owns an Ast::Variable child and uses only
its name; Ast::While, Ast::IfElse and Ast::FunctionDeclaration own Ast::Block
children, modelled here by the child list of that owned block.  Conditions are
typed Ast::LessThan in C++; they are modelled as general subtrees, a superset
of what the C++ constructors admit.  AstInterpreter stores C++ `int` values:
all arithmetic is 32-bit, modelled on Int with an explicit wrap at 2^32. -/

/-- enum class ValueType (src/ast.h:86-91). -/
inductive ValueType where
  | void
  | int
  | float
  | bool
  deriving DecidableEq, Repr

/-- to_string(ValueType) (src/ast.cpp:3-15). -/
def to_string : ValueType → String
  | .void => "void"
  | .int => "int"
  | .float => "float"
  | .bool => "bool"

/-- The AST node variants (struct Ast and nested structs, src/ast.h:25-251). -/
inductive Ast where
  | literal (value : Int)
  | var (name : String)
  | add (left right : Ast)
  | lessThan (left right : Ast)
  | increment (name : String)
  | assignment (name : String) (value : Ast)
  | variableDeclaration (name : String) (type : ValueType) (initializer : Ast)
  | returnStmt (value : Ast)
  | block (children : List Ast)
  | ifElse (condition : Ast) (body elseBody : List Ast)
  | whileLoop (condition : Ast) (body : List Ast)
  | functionDeclaration (name : String) (returnType : ValueType) (body : List Ast)

mutual

/-- The dump(std::ostream&) methods of the Ast node structs (src/ast.h), which
print NodeName(field, field, ...) from the node's fields alone. -/
def dump : Ast → String
  | .literal value => "Literal(" ++ toString value ++ ")"
  | .var name => "Variable(" ++ name ++ ")"
  | .add l r => "Add(" ++ dump l ++ ", " ++ dump r ++ ")"
  | .lessThan l r => "LessThan(" ++ dump l ++ ", " ++ dump r ++ ")"
  | .increment name => "Increment(" ++ name ++ ")"
  | .assignment name value => "Assignment(" ++ name ++ ", " ++ dump value ++ ")"
  | .variableDeclaration name t initializer =>
      "VariableDeclaration(" ++ name ++ ", " ++ to_string t ++ ", " ++ dump initializer ++ ")"
  | .returnStmt value => "Return(" ++ dump value ++ ")"
  | .block children => "Block(" ++ dumpList children ++ ")"
  | .ifElse c b e =>
      "IfElse(" ++ dump c ++ ", Block(" ++ dumpList b ++ "), Block(" ++ dumpList e ++ "))"
  | .whileLoop c b => "While(" ++ dump c ++ ", Block(" ++ dumpList b ++ "))"
  | .functionDeclaration name rt b =>
      "FunctionDeclaration(" ++ name ++ ", " ++ to_string rt ++ ", Block(" ++ dumpList b ++ "))"

/-- The loop body of Ast::Block::dump (src/ast.h:77-83): children dumped in
order with no separator between them. -/
def dumpList : List Ast → String
  | [] => ""
  | a :: rest => dump a ++ dumpList rest

end

theorem join_cons (s : String) (l : List String) :
    String.join (s :: l) = s ++ String.join l := by
  apply String.ext
  simp

theorem dumpList_eq_join (cs : List Ast) :
    dumpList cs = String.join (cs.map dump) := by
  induction cs with
  | nil => rfl
  | cons a rest ih => rw [List.map_cons, join_cons, dumpList, ih]

/-- C8: dump output is determined solely by the node's structure (structurally
identical trees dump byte-identically), a Block dumps its children
concatenated with no separator, and dumping is a total function. -/
theorem C8_dump_deterministic (t1 t2 : Ast) (cs : List Ast) (h : t1 = t2) :
    dump t1 = dump t2 ∧
    dump (Ast.block cs) = "Block(" ++ String.join (cs.map dump) ++ ")" := by
  constructor
  · rw [h]
  · rw [dump, dumpList_eq_join]

/-- Witness for C8: two separately constructed copies of Block(Literal(1)
Literal(2)) dump identically, and the Block's dump is the separator-free
concatenation of its children's dumps. -/
theorem C8_dump_deterministic_witness :
    dump (Ast.block [Ast.literal 1, Ast.literal 2]) =
      dump (Ast.block [Ast.literal 1, Ast.literal 2]) ∧
    dump (Ast.block [Ast.literal 1, Ast.literal 2]) =
      "Block(" ++ String.join ([Ast.literal 1, Ast.literal 2].map dump) ++ ")" :=
  C8_dump_deterministic (Ast.block [Ast.literal 1, Ast.literal 2])
    (Ast.block [Ast.literal 1, Ast.literal 2]) [Ast.literal 1, Ast.literal 2] rfl

/-! ## The tree interpreter (struct AstInterpreter, src/ast.h:253-346)

The variable environment is std::unordered_map<std::string, int>: a finite
map from name to C++ `int`, modelled as a total function into Option Int.
The interpreter's recursion can diverge (While), so the model takes a fuel
argument consumed on every recursive call; outOfFuel is the artificial
exhaustion result and assertFailed models a fired assert() aborting the
process. -/

def Env := String → Option Int

def emptyEnv : Env := fun _ => none

/-- Map update: both operator[] insertion and assignment through it. -/
def envInsert (env : Env) (n : String) (v : Int) : Env :=
  fun m => if m = n then some v else env m

/-- Two's-complement wrap-around of C++ `int` arithmetic at 32 bits. -/
def wrap32 (x : Int) : Int := (x + 2 ^ 31) % 2 ^ 32 - 2 ^ 31

/-- Result of a call to AstInterpreter::interpret: a value together with the
updated environment, a fired assertion, or fuel exhaustion. -/
inductive IResult where
  | ok (value : Int) (env : Env)
  | assertFailed
  | outOfFuel

mutual

/-- AstInterpreter::interpret (src/ast.h:315-343) and the interpret_* methods
it dispatches to.  Each case mirrors the corresponding method; the `int`
arithmetic of interpret_add and of the post-increment wraps at 32 bits.
Where C++ leaves the evaluation order of `f(l) <op> f(r)` unspecified, the
model evaluates left before right. -/
def interp : Nat → Ast → Env → IResult
  | 0, _, _ => .outOfFuel
  | fuel + 1, a, env =>
    match a with
    | .literal v => .ok v env
    | .var n =>
        -- interpret_variable: variables[name]; operator[] default-inserts 0
        match env n with
        | some v => .ok v env
        | none => .ok 0 (envInsert env n 0)
    | .add l r =>
        -- interpret_add: interpret(left) + interpret(right)
        match interp fuel l env with
        | .ok v1 env1 =>
            match interp fuel r env1 with
            | .ok v2 env2 => .ok (wrap32 (v1 + v2)) env2
            | e => e
        | e => e
    | .lessThan l r =>
        -- interpret_less_than: interpret(left) < interpret(right)
        match interp fuel l env with
        | .ok v1 env1 =>
            match interp fuel r env1 with
            | .ok v2 env2 => .ok (if v1 < v2 then 1 else 0) env2
            | e => e
        | e => e
    | .increment n =>
        -- interpret_increment: variables[name]++ with no assert: an absent
        -- name is default-inserted as 0, then post-incremented
        match env n with
        | some v => .ok v (envInsert env n (wrap32 (v + 1)))
        | none => .ok 0 (envInsert env n 1)
    | .variableDeclaration n _ initializer =>
        -- interpret_variable_declaration: assert(find == end) first, then
        -- variables[name] = interpret(initializer)
        if (env n).isSome then .assertFailed
        else
          match interp fuel initializer env with
          | .ok v env1 => .ok v (envInsert env1 n v)
          | e => e
    | .assignment n v =>
        -- interpret_assignment: assert(find != end) first, then
        -- variables[name] = interpret(value)
        if (env n).isSome then
          match interp fuel v env with
          | .ok w env1 => .ok w (envInsert env1 n w)
          | e => e
        else .assertFailed
    | .returnStmt v => interp fuel v env
    | .block cs => interpSeq fuel cs 0 env
    | .ifElse c b e =>
        -- interpret_if_else: nonzero condition selects the body block
        match interp fuel c env with
        | .ok cv env1 =>
            if cv ≠ 0 then interpSeq fuel b 0 env1 else interpSeq fuel e 0 env1
        | e => e
    | .whileLoop c b => interpWhile fuel c b 0 env
    | .functionDeclaration _ _ b => interpSeq fuel b 0 env

/-- interpret_block (src/ast.h:273-279): result starts at 0 and is replaced
by each child's result in order. -/
def interpSeq : Nat → List Ast → Int → Env → IResult
  | _, [], acc, env => .ok acc env
  | 0, _ :: _, _, _ => .outOfFuel
  | fuel + 1, a :: rest, _, env =>
      match interp fuel a env with
      | .ok v env1 => interpSeq fuel rest v env1
      | e => e

/-- interpret_while (src/ast.h:281-287): while the condition is nonzero the
body block is evaluated, and the last body result (or 0) is returned. -/
def interpWhile : Nat → Ast → List Ast → Int → Env → IResult
  | 0, _, _, _, _ => .outOfFuel
  | fuel + 1, c, b, acc, env =>
      match interp fuel c env with
      | .ok cv env1 =>
          if cv ≠ 0 then
            match interpSeq fuel b 0 env1 with
            | .ok bv env2 => interpWhile fuel c b bv env2
            | e => e
          else .ok acc env1
      | e => e

end

/-! ## The interpreter computes over 32-bit integers

AstInterpreter::variables is std::unordered_map<std::string, int> and every
interpret_* method returns `int`: the value domain is 32-bit.  The following
invariant makes that precise: from literals and an environment within the
`int` range, every value computed and every value stored stays within the
`int` range. -/

/-- Membership in the value range of the C++ `int` type. -/
def inRange32 (v : Int) : Prop := -(2 ^ 31) ≤ v ∧ v < 2 ^ 31

instance (v : Int) : Decidable (inRange32 v) := inferInstanceAs (Decidable (_ ∧ _))

/-- Every value stored in the environment is within the `int` range. -/
def envOK (env : Env) : Prop := ∀ n v, env n = some v → inRange32 v

mutual

/-- All Literal fields of a tree are within the `int` range (true of every
tree the C++ constructors can build, since Ast::Literal stores an `int`). -/
def litsOK : Ast → Bool
  | .literal v => decide (inRange32 v)
  | .var _ => true
  | .add l r => litsOK l && litsOK r
  | .lessThan l r => litsOK l && litsOK r
  | .increment _ => true
  | .assignment _ v => litsOK v
  | .variableDeclaration _ _ i => litsOK i
  | .returnStmt v => litsOK v
  | .block cs => litsOKList cs
  | .ifElse c b e => litsOK c && (litsOKList b && litsOKList e)
  | .whileLoop c b => litsOK c && litsOKList b
  | .functionDeclaration _ _ b => litsOKList b

/-- litsOK over a child list. -/
def litsOKList : List Ast → Bool
  | [] => true
  | a :: rest => litsOK a && litsOKList rest

end

/-- An interpreter result within the `int` range: a produced value and an
environment of stored values all in range (vacuous for failures). -/
def resOK : IResult → Prop
  | .ok v env => inRange32 v ∧ envOK env
  | .assertFailed => True
  | .outOfFuel => True

theorem wrap32_inRange (x : Int) : inRange32 (wrap32 x) := by
  unfold inRange32 wrap32
  have h1 : 0 ≤ (x + 2 ^ 31) % 2 ^ 32 := Int.emod_nonneg _ (by norm_num)
  have h2 : (x + 2 ^ 31) % 2 ^ 32 < 2 ^ 32 := Int.emod_lt_of_pos _ (by norm_num)
  omega

theorem envOK_empty : envOK emptyEnv := fun _ v h => Option.noConfusion h

theorem envOK_insert (env : Env) (n : String) (v : Int)
    (he : envOK env) (hv : inRange32 v) : envOK (envInsert env n v) := by
  intro m w h
  unfold envInsert at h
  by_cases hm : m = n
  · rw [if_pos hm] at h
    cases h
    exact hv
  · rw [if_neg hm] at h
    exact he m w h

theorem zero_inRange32 : inRange32 0 := by decide

theorem one_inRange32 : inRange32 1 := by decide

/-- The range invariant, by simultaneous induction on fuel over the three
mutually recursive interpreter functions. -/
theorem interp_inv : ∀ fuel : Nat,
    (∀ a env, litsOK a = true → envOK env → resOK (interp fuel a env)) ∧
    (∀ cs acc env, litsOKList cs = true → inRange32 acc → envOK env →
      resOK (interpSeq fuel cs acc env)) ∧
    (∀ c b acc env, litsOK c = true → litsOKList b = true → inRange32 acc → envOK env →
      resOK (interpWhile fuel c b acc env)) := by
  intro fuel
  induction fuel with
  | zero =>
      refine ⟨fun a env _ _ => trivial, fun cs acc env _ hacc henv => ?_,
              fun c b acc env _ _ _ _ => trivial⟩
      cases cs with
      | nil => exact ⟨hacc, henv⟩
      | cons a rest => exact trivial
  | succ fuel ih =>
      obtain ⟨ihA, ihS, ihW⟩ := ih
      refine ⟨?_, ?_, ?_⟩
      · intro a env hl henv
        cases a with
        | literal v => exact ⟨of_decide_eq_true hl, henv⟩
        | var n =>
            simp only [interp]
            cases h : env n with
            | some v => exact ⟨henv n v h, henv⟩
            | none => exact ⟨zero_inRange32, envOK_insert env n 0 henv zero_inRange32⟩
        | add l r =>
            rw [litsOK, Bool.and_eq_true] at hl
            simp only [interp]
            cases h1 : interp fuel l env with
            | ok v1 env1 =>
                dsimp only
                have r1 := ihA l env hl.1 henv
                rw [h1] at r1
                cases h2 : interp fuel r env1 with
                | ok v2 env2 =>
                    have r2 := ihA r env1 hl.2 r1.2
                    rw [h2] at r2
                    exact ⟨wrap32_inRange _, r2.2⟩
                | assertFailed => exact trivial
                | outOfFuel => exact trivial
            | assertFailed => exact trivial
            | outOfFuel => exact trivial
        | lessThan l r =>
            rw [litsOK, Bool.and_eq_true] at hl
            simp only [interp]
            cases h1 : interp fuel l env with
            | ok v1 env1 =>
                dsimp only
                have r1 := ihA l env hl.1 henv
                rw [h1] at r1
                cases h2 : interp fuel r env1 with
                | ok v2 env2 =>
                    have r2 := ihA r env1 hl.2 r1.2
                    rw [h2] at r2
                    refine ⟨?_, r2.2⟩
                    by_cases hc : v1 < v2
                    · rw [if_pos hc]; exact one_inRange32
                    · rw [if_neg hc]; exact zero_inRange32
                | assertFailed => exact trivial
                | outOfFuel => exact trivial
            | assertFailed => exact trivial
            | outOfFuel => exact trivial
        | increment n =>
            simp only [interp]
            cases h : env n with
            | some v =>
                exact ⟨henv n v h, envOK_insert env n _ henv (wrap32_inRange _)⟩
            | none =>
                exact ⟨zero_inRange32, envOK_insert env n 1 henv one_inRange32⟩
        | variableDeclaration n t initializer =>
            simp only [interp]
            by_cases h : (env n).isSome
            · rw [if_pos h]; exact trivial
            · rw [if_neg h]
              cases h1 : interp fuel initializer env with
              | ok v env1 =>
                  have r1 := ihA initializer env hl henv
                  rw [h1] at r1
                  exact ⟨r1.1, envOK_insert env1 n v r1.2 r1.1⟩
              | assertFailed => exact trivial
              | outOfFuel => exact trivial
        | assignment n v =>
            simp only [interp]
            by_cases h : (env n).isSome
            · rw [if_pos h]
              cases h1 : interp fuel v env with
              | ok w env1 =>
                  have r1 := ihA v env hl henv
                  rw [h1] at r1
                  exact ⟨r1.1, envOK_insert env1 n w r1.2 r1.1⟩
              | assertFailed => exact trivial
              | outOfFuel => exact trivial
            · rw [if_neg h]; exact trivial
        | returnStmt v =>
            simp only [interp]
            exact ihA v env hl henv
        | block cs =>
            simp only [interp]
            exact ihS cs 0 env hl zero_inRange32 henv
        | ifElse c b e =>
            rw [litsOK, Bool.and_eq_true, Bool.and_eq_true] at hl
            simp only [interp]
            cases h1 : interp fuel c env with
            | ok cv env1 =>
                dsimp only
                have r1 := ihA c env hl.1 henv
                rw [h1] at r1
                by_cases hc : cv ≠ 0
                · rw [if_pos hc]; exact ihS b 0 env1 hl.2.1 zero_inRange32 r1.2
                · rw [if_neg hc]; exact ihS e 0 env1 hl.2.2 zero_inRange32 r1.2
            | assertFailed => exact trivial
            | outOfFuel => exact trivial
        | whileLoop c b =>
            rw [litsOK, Bool.and_eq_true] at hl
            simp only [interp]
            exact ihW c b 0 env hl.1 hl.2 zero_inRange32 henv
        | functionDeclaration n rt b =>
            simp only [interp]
            exact ihS b 0 env hl zero_inRange32 henv
      · intro cs acc env hcs hacc henv
        cases cs with
        | nil => exact ⟨hacc, henv⟩
        | cons a rest =>
            rw [litsOKList, Bool.and_eq_true] at hcs
            simp only [interpSeq]
            cases h1 : interp fuel a env with
            | ok v env1 =>
                have r1 := ihA a env hcs.1 henv
                rw [h1] at r1
                exact ihS rest v env1 hcs.2 r1.1 r1.2
            | assertFailed => exact trivial
            | outOfFuel => exact trivial
      · intro c b acc env hc hb hacc henv
        simp only [interpWhile]
        cases h1 : interp fuel c env with
        | ok cv env1 =>
            dsimp only
            have r1 := ihA c env hc henv
            rw [h1] at r1
            by_cases hcv : cv ≠ 0
            · rw [if_pos hcv]
              cases h2 : interpSeq fuel b 0 env1 with
              | ok bv env2 =>
                  have r2 := ihS b 0 env1 hb zero_inRange32 r1.2
                  rw [h2] at r2
                  exact ihW c b bv env2 hc hb r2.1 r2.2
              | assertFailed => exact trivial
              | outOfFuel => exact trivial
            · rw [if_neg hcv]; exact ⟨hacc, r1.2⟩
        | assertFailed => exact trivial
        | outOfFuel => exact trivial

/-! ## Claims about the tree interpreter -/

/-- C4 evidence against the claim as stated: interpret_increment has no
assert.  Incrementing the undeclared name x on an empty environment does not
fail: operator[] default-inserts 0, the post-increment returns 0 and stores
1. -/
theorem C4_increment_of_undeclared_does_not_fail :
    interp 1 (.increment "x") emptyEnv = .ok 0 (envInsert emptyEnv "x" 1) ∧
    interp 1 (.increment "x") emptyEnv ≠ .assertFailed :=
  ⟨rfl, fun h => IResult.noConfusion h⟩

/-- C4 (amended): a VariableDeclaration whose name is already present fails
the assert, an Assignment whose name is absent fails the assert, and an
Increment whose name is absent does not fail: it default-inserts the name
with 0, post-increments it to 1, and returns 0. -/
theorem C4_declaration_discipline (fuel : Nat) (env : Env) (n : String)
    (t : ValueType) (initializer value : Ast) :
    ((env n).isSome = true →
      interp (fuel + 1) (.variableDeclaration n t initializer) env = .assertFailed) ∧
    ((env n).isSome = false →
      interp (fuel + 1) (.assignment n value) env = .assertFailed) ∧
    (env n = none →
      interp (fuel + 1) (.increment n) env = .ok 0 (envInsert env n 1)) := by
  refine ⟨fun h => ?_, fun h => ?_, fun h => ?_⟩ <;> simp [interp, h]

/-- Witness for C4 (amended) at concrete inputs: redeclaring x after x = 5
fails, assigning to x in the empty environment fails, incrementing x in the
empty environment succeeds with result 0. -/
theorem C4_declaration_discipline_witness :
    interp 1 (.variableDeclaration "x" .int (.literal 0)) (envInsert emptyEnv "x" 5)
      = .assertFailed ∧
    interp 1 (.assignment "x" (.literal 0)) emptyEnv = .assertFailed ∧
    interp 1 (.increment "x") emptyEnv = .ok 0 (envInsert emptyEnv "x" 1) :=
  ⟨(C4_declaration_discipline 0 (envInsert emptyEnv "x" 5) "x" .int (.literal 0)
      (.literal 0)).1 rfl,
   (C4_declaration_discipline 0 emptyEnv "x" .int (.literal 0) (.literal 0)).2.1 rfl,
   (C4_declaration_discipline 0 emptyEnv "x" .int (.literal 0) (.literal 0)).2.2 rfl⟩

/-- C5 evidence against the claim as stated: interpret_add computes over the
C++ `int` type, so Add(2^31 − 1, 1) wraps to −2^31 rather than producing the
64-bit sum 2^31. -/
theorem C5_add_wraps_at_32_not_64 :
    interp 2 (.add (.literal (2 ^ 31 - 1)) (.literal 1)) emptyEnv
      = .ok (-(2 ^ 31)) emptyEnv ∧
    (-(2 ^ 31) : Int) ≠ (2 ^ 31 - 1) + 1 :=
  ⟨rfl, by decide⟩

/-- C5 (amended): the variable environment maps each name to a 32-bit `int`
value (from in-range literals and an in-range environment, every stored value
stays in the `int` range), and interpreting Add(l, r) returns the 32-bit sum
of interpret(l) and interpret(r), wrapping on overflow. -/
theorem C5_env32_and_add_wrap32 (fuel : Nat) (l r : Ast) (env env1 env2 : Env)
    (v1 v2 : Int)
    (hl : interp fuel l env = .ok v1 env1) (hr : interp fuel r env1 = .ok v2 env2)
    (hwl : litsOK l = true) (hwr : litsOK r = true) (henv : envOK env) :
    interp (fuel + 1) (.add l r) env = .ok (wrap32 (v1 + v2)) env2 ∧
    inRange32 (wrap32 (v1 + v2)) ∧ envOK env2 := by
  refine ⟨by simp [interp, hl, hr], wrap32_inRange _, ?_⟩
  have r1 := (interp_inv fuel).1 l env hwl henv
  rw [hl] at r1
  have r2 := (interp_inv fuel).1 r env1 hwr r1.2
  rw [hr] at r2
  exact r2.2

/-- Witness for C5 (amended) at Add(Literal 1, Literal 2) on the empty
environment. -/
theorem C5_env32_and_add_wrap32_witness :
    interp 1 (Ast.literal 1) emptyEnv = .ok 1 emptyEnv ∧
    interp 1 (Ast.literal 2) emptyEnv = .ok 2 emptyEnv ∧
    litsOK (Ast.literal 1) = true ∧
    (interp 2 (.add (.literal 1) (.literal 2)) emptyEnv = .ok (wrap32 (1 + 2)) emptyEnv ∧
     inRange32 (wrap32 (1 + 2)) ∧ envOK emptyEnv) :=
  ⟨rfl, rfl, by decide,
   C5_env32_and_add_wrap32 1 (.literal 1) (.literal 2) emptyEnv emptyEnv emptyEnv 1 2
     rfl rfl (by decide) (by decide) envOK_empty⟩

/-- C9: reading a Variable whose name is absent does not fail: it returns 0
and inserts the name with value 0 (operator[] default-insertion in
interpret_variable), after which a VariableDeclaration of the same name hits
the duplicate-declaration assert. -/
theorem C9_variable_default_inserts (fuel fuel2 : Nat) (env : Env) (n : String)
    (t : ValueType) (initializer : Ast) (h : env n = none) :
    interp (fuel + 1) (.var n) env = .ok 0 (envInsert env n 0) ∧
    interp (fuel2 + 1) (.variableDeclaration n t initializer) (envInsert env n 0)
      = .assertFailed := by
  constructor
  · simp [interp, h]
  · simp [interp, envInsert]

/-- Witness for C9 with name x on the empty environment. -/
theorem C9_variable_default_inserts_witness :
    interp 1 (.var "x") emptyEnv = .ok 0 (envInsert emptyEnv "x" 0) ∧
    interp 1 (.variableDeclaration "x" .int (.literal 0)) (envInsert emptyEnv "x" 0)
      = .assertFailed :=
  C9_variable_default_inserts 0 0 emptyEnv "x" .int (.literal 0) rfl

/-! ## Byte-level JIT emission and fixup patching (src/main.cpp:213-508)

This model follows Jit::compile byte for byte.  Emission state carries the
output buffer (jit.buf), the per-block starting offsets assigned in phase 1
(block->offset, indexed by block position), and the recorded fixups: C++
keeps each site in the target block's jumps_to_here vector; here a fixup is
the pair (site, target block index), collected in emission order. -/

/-- Machine register numbers of Assembler::Reg (src/main.cpp:217-225):
R0 = RAX, R1 = RCX, RegisterArrayBase = RSI, LocalArrayBase = RDX. -/
def RAX : Nat := 0

def RCX : Nat := 1

def RSI : Nat := 6

def RDX : Nat := 2

/-- Little-endian bytes emitted by Assembler::emit32. -/
def bytes32 (d : Nat) : List Nat :=
  [d &&& 255, (d >>> 8) &&& 255, (d >>> 16) &&& 255, (d >>> 24) &&& 255]

/-- Little-endian bytes emitted by Assembler::emit64. -/
def bytes64 (q : Nat) : List Nat :=
  [q &&& 255, (q >>> 8) &&& 255, (q >>> 16) &&& 255, (q >>> 24) &&& 255,
   (q >>> 32) &&& 255, (q >>> 40) &&& 255, (q >>> 48) &&& 255, (q >>> 56) &&& 255]

/-- MOV reg, imm64 (Assembler::mov, Reg ← Imm64 case, src/main.cpp:270-276). -/
def movRegImm64 (dst imm : Nat) : List Nat := [0x48, 0xb8 ||| dst] ++ bytes64 imm

/-- MOV qword [base + offset], reg (Assembler::mov, src/main.cpp:278-285). -/
def movMemReg (base offset src : Nat) : List Nat :=
  [0x48, 0x89, 0x80 ||| (src <<< 3) ||| base] ++ bytes32 offset

/-- MOV reg, qword [base + offset] (Assembler::mov, src/main.cpp:287-294). -/
def movRegMem (dst base offset : Nat) : List Nat :=
  [0x48, 0x8b, 0x80 ||| (dst <<< 3) ||| base] ++ bytes32 offset

/-- Assembler::store_vm_register (src/main.cpp:326-329). -/
def storeVmRegister (dst src : Nat) : List Nat := movMemReg RSI (dst * 8) src

/-- Assembler::load_vm_register (src/main.cpp:331-334). -/
def loadVmRegister (dst src : Nat) : List Nat := movRegMem dst RSI (src * 8)

/-- Assembler::store_vm_local (src/main.cpp:336-339). -/
def storeVmLocal (l src : Nat) : List Nat := movMemReg RDX (l * 8) src

/-- Assembler::load_vm_local (src/main.cpp:341-344). -/
def loadVmLocal (dst l : Nat) : List Nat := movRegMem dst RDX (l * 8)

/-- Assembler::increment (src/main.cpp:346-350). -/
def incrementBytes (reg : Nat) : List Nat := [0x48, 0xff, 0xc0 ||| reg]

/-- Assembler::less_than (src/main.cpp:352-368): CMP, SETL, MOVZX. -/
def lessThanBytes (dst src : Nat) : List Nat :=
  [0x48, 0x39, 0xc0 ||| (src <<< 3) ||| dst,
   0x0f, 0x9c, 0xc0 ||| dst,
   0x48, 0x0f, 0xb6, 0xc0 ||| (dst <<< 3) ||| dst]

/-- State of Jit::compile phase 1: jit.buf, the block offsets assigned so
far, and the recorded fixup sites with their target block. -/
structure EmitState where
  buf : List Nat
  offsets : List Nat
  fixups : List (Nat × Nat)

/-- Append instruction bytes to the buffer (Assembler::emit8/16/32/64 all
reduce to push_back of byte values). -/
def emitBytes (bs : List Nat) (st : EmitState) : EmitState :=
  { st with buf := st.buf ++ bs }

/-- Assembler::jump (src/main.cpp:370-375): opcode E9, then a 4-byte
placeholder whose byte offset — buf.size() truncated to u32 by
narrow_cast — is recorded as a fixup for the target block. -/
def asmJump (target : Nat) (st : EmitState) : EmitState :=
  { st with
    buf := st.buf ++ [0xe9] ++ bytes32 0xdeadbeef,
    fixups := st.fixups ++ [((st.buf.length + 1) % 2 ^ 32, target)] }

/-- Assembler::jump_conditional (src/main.cpp:377-392): CMP cond, 0; JE (0F
84) with a placeholder recorded for the false block; then Assembler::jump to
the true block. -/
def asmJumpConditional (cond tb fb : Nat) (st : EmitState) : EmitState :=
  asmJump tb
    { st with
      buf := st.buf ++ [0x48, 0x83, 0xf8, 0x00 ||| cond] ++ [0x0f, 0x84]
               ++ bytes32 0xdeadbeef,
      fixups := st.fixups ++ [((st.buf.length + 6) % 2 ^ 32, fb)] }

/-- The per-instruction lowering dispatch of Jit::compile phase 1
(src/main.cpp:452-487), via the compile_* methods (src/main.cpp:398-443). -/
def compileInstr (i : Instr) (st : EmitState) : EmitState :=
  match i with
  | .loadImmediate v => emitBytes (movRegImm64 RAX v ++ storeVmRegister 0 RAX) st
  | .load r => emitBytes (loadVmRegister RAX r ++ storeVmRegister 0 RAX) st
  | .store r => emitBytes (loadVmRegister RAX 0 ++ storeVmRegister r RAX) st
  | .setLocal l => emitBytes (loadVmRegister RAX 0 ++ storeVmLocal l RAX) st
  | .getLocal l => emitBytes (loadVmLocal RAX l ++ storeVmRegister 0 RAX) st
  | .increment =>
      emitBytes (loadVmRegister RAX 0 ++ incrementBytes RAX ++ storeVmRegister 0 RAX) st
  | .lessThan lhs =>
      emitBytes (loadVmRegister RAX lhs ++ loadVmRegister RCX 0
        ++ lessThanBytes RAX RCX ++ storeVmRegister 0 RAX) st
  | .jump t => asmJump t st
  | .jumpConditional tb fb =>
      asmJumpConditional RAX tb fb (emitBytes (loadVmRegister RAX 0) st)
  | .exit => emitBytes [0xc3] st

/-- Phase 1 over one block's instruction list. -/
def compileBlock (instrs : List Instr) (st : EmitState) : EmitState :=
  instrs.foldl (fun st i => compileInstr i st) st

/-- Phase 1 over the block list: each block's starting offset is recorded
(block->offset = jit.buf.size(), src/main.cpp:451) before its instructions
are lowered. -/
def compileBlocks : List (List Instr) → EmitState → EmitState
  | [], st => st
  | b :: bs, st =>
      compileBlocks bs (compileBlock b { st with offsets := st.offsets ++ [st.buf.length] })

/-- The emission state after phase 1 of Jit::compile. -/
def phase1 (p : Program) : EmitState := compileBlocks p ⟨[], [], []⟩

/-- The patch value: auto offset = block->offset - jump - 4 in size_t
arithmetic (src/main.cpp:492). -/
def dispValue (offsets : List Nat) (b s : Nat) : Nat :=
  (((offsets.getD b 0 : Int) - (s : Int) - 4).emod (2 ^ 64)).toNat

/-- Write the four little-endian displacement bytes at the fixup site
(src/main.cpp:494-497). -/
def patch32 (buf : List Nat) (s v : Nat) : List Nat :=
  (((buf.set s (v &&& 255)).set (s + 1) ((v >>> 8) &&& 255)).set
      (s + 2) ((v >>> 16) &&& 255)).set (s + 3) ((v >>> 24) &&& 255)

/-- Phase 2 of Jit::compile (src/main.cpp:490-499): for each block in program
order, patch every fixup recorded for it.  A fixup's second component is the
index of the block whose jumps_to_here vector holds it in C++, so the
displacement uses that block's offset, exactly as the patch loop does. -/
def phase2 (st : EmitState) : List Nat :=
  (List.range st.offsets.length).foldl
    (fun buf b =>
      (st.fixups.filter (fun sb => sb.2 = b)).foldl
        (fun buf sb => patch32 buf sb.1 (dispValue st.offsets sb.2 sb.1)) buf)
    st.buf

/-- The 32-bit little-endian integer held by the bytes at [s, s+4). -/
def read32 (buf : List Nat) (s : Nat) : Nat :=
  (buf[s]?.getD 0) + 256 * (buf[s + 1]?.getD 0) + 65536 * (buf[s + 2]?.getD 0)
    + 16777216 * (buf[s + 3]?.getD 0)

/-- Every jump operand names one of the n blocks (automatic in C++, where
Jump and JumpConditional hold block references). -/
def instrTargetsOK (n : Nat) : Instr → Bool
  | .jump t => decide (t < n)
  | .jumpConditional tb fb => decide (tb < n) && decide (fb < n)
  | _ => true

/-- All jump operands of the program name one of its blocks. -/
def wfProgram (p : Program) : Bool :=
  List.all p (fun blk => blk.all (instrTargetsOK (List.length p)))

/-! ### Emission invariants

Every recorded fixup site is followed by its four placeholder bytes inside the
buffer, sites are recorded in strictly increasing order at least four bytes
apart, and every fixup targets an existing block.  narrow_cast<u32> makes a
recorded site exact as long as the buffer stays below 2^32 bytes — beyond
that the C++ is already broken (the buffer no longer fits the 4096-byte
executable region it is copied into). -/

/-- Invariant of the phase-1 emission state for an n-block program. -/
def emitInv (n : Nat) (st : EmitState) : Prop :=
  (∀ sb ∈ st.fixups, sb.1 + 4 ≤ st.buf.length) ∧
  st.fixups.Pairwise (fun a b => a.1 + 4 ≤ b.1) ∧
  (∀ sb ∈ st.fixups, sb.2 < n)

theorem emitBytes_inv (n : Nat) (bs : List Nat) (st : EmitState)
    (hinv : emitInv n st) : emitInv n (emitBytes bs st) := by
  obtain ⟨hb, hp, ht⟩ := hinv
  refine ⟨fun sb hsb => ?_, hp, ht⟩
  have := hb sb hsb
  simp only [emitBytes, List.length_append]
  omega

theorem asmJump_inv (n t : Nat) (st : EmitState) (ht : t < n) (hinv : emitInv n st)
    (hlen : (asmJump t st).buf.length < 2 ^ 32) :
    emitInv n (asmJump t st) := by
  obtain ⟨hb, hp, htg⟩ := hinv
  have hlen5 : (asmJump t st).buf.length = st.buf.length + 5 := by
    simp [asmJump, bytes32]
  have hsite : (st.buf.length + 1) % 2 ^ 32 = st.buf.length + 1 :=
    Nat.mod_eq_of_lt (by omega)
  refine ⟨?_, ?_, ?_⟩
  · intro sb hsb
    rw [hlen5]
    simp only [asmJump, List.mem_append, List.mem_singleton] at hsb
    rcases hsb with h | h
    · have := hb sb h
      omega
    · rw [h, hsite]
  · simp only [asmJump]
    rw [List.pairwise_append]
    refine ⟨hp, List.pairwise_singleton _ _, ?_⟩
    intro a ha c hc
    rw [List.mem_singleton] at hc
    rw [hc, hsite]
    have := hb a ha
    omega
  · intro sb hsb
    simp only [asmJump, List.mem_append, List.mem_singleton] at hsb
    rcases hsb with h | h
    · exact htg sb h
    · rw [h]
      exact ht

theorem asmJumpConditional_inv (n cond tb fb : Nat) (st : EmitState)
    (htb : tb < n) (hfb : fb < n) (hinv : emitInv n st)
    (hlen : (asmJumpConditional cond tb fb st).buf.length < 2 ^ 32) :
    emitInv n (asmJumpConditional cond tb fb st) := by
  obtain ⟨hb, hp, htg⟩ := hinv
  have hlen15 : (asmJumpConditional cond tb fb st).buf.length = st.buf.length + 15 := by
    simp [asmJumpConditional, asmJump, bytes32]
  have hmid : st.buf.length + 10 < 2 ^ 32 := by omega
  have hsite : (st.buf.length + 6) % 2 ^ 32 = st.buf.length + 6 :=
    Nat.mod_eq_of_lt (by omega)
  rw [hlen15] at hlen
  apply asmJump_inv n tb _ htb ?_ (by simp [asmJump, bytes32]; omega)
  refine ⟨?_, ?_, ?_⟩
  · intro sb hsb
    simp only [List.mem_append, List.mem_singleton, List.length_append, bytes32,
      List.length_cons, List.length_nil] at hsb ⊢
    rcases hsb with h | h
    · have := hb sb h
      omega
    · rw [h, hsite]
  · rw [List.pairwise_append]
    refine ⟨hp, List.pairwise_singleton _ _, ?_⟩
    intro a ha c hc
    rw [List.mem_singleton] at hc
    rw [hc, hsite]
    have := hb a ha
    omega
  · intro sb hsb
    simp only [List.mem_append, List.mem_singleton] at hsb
    rcases hsb with h | h
    · exact htg sb h
    · rw [h]
      exact hfb

theorem compileInstr_offsets (i : Instr) (st : EmitState) :
    (compileInstr i st).offsets = st.offsets := by
  cases i <;> rfl

theorem compileInstr_mono (i : Instr) (st : EmitState) :
    st.buf.length ≤ (compileInstr i st).buf.length := by
  cases i <;>
    simp [compileInstr, emitBytes, asmJump, asmJumpConditional, movRegImm64, movMemReg,
      movRegMem, storeVmRegister, loadVmRegister, storeVmLocal, loadVmLocal,
      incrementBytes, lessThanBytes, bytes32, bytes64]

theorem compileInstr_inv (n : Nat) (i : Instr) (st : EmitState)
    (hi : instrTargetsOK n i = true) (hinv : emitInv n st)
    (hlen : (compileInstr i st).buf.length < 2 ^ 32) :
    emitInv n (compileInstr i st) := by
  cases i with
  | jump t =>
      exact asmJump_inv n t st (by simpa [instrTargetsOK] using hi) hinv hlen
  | jumpConditional tb fb =>
      rw [instrTargetsOK, Bool.and_eq_true, decide_eq_true_iff, decide_eq_true_iff] at hi
      exact asmJumpConditional_inv n RAX tb fb _ hi.1 hi.2
        (emitBytes_inv n _ st hinv) hlen
  | exit => exact emitBytes_inv n _ st hinv
  | loadImmediate v => exact emitBytes_inv n _ st hinv
  | load r => exact emitBytes_inv n _ st hinv
  | store r => exact emitBytes_inv n _ st hinv
  | setLocal l => exact emitBytes_inv n _ st hinv
  | getLocal l => exact emitBytes_inv n _ st hinv
  | increment => exact emitBytes_inv n _ st hinv
  | lessThan lhs => exact emitBytes_inv n _ st hinv

theorem compileBlock_cons (i : Instr) (rest : List Instr) (st : EmitState) :
    compileBlock (i :: rest) st = compileBlock rest (compileInstr i st) := rfl

theorem compileBlock_mono (instrs : List Instr) (st : EmitState) :
    st.buf.length ≤ (compileBlock instrs st).buf.length := by
  induction instrs generalizing st with
  | nil => exact Nat.le_refl _
  | cons i rest ih =>
      rw [compileBlock_cons]
      exact Nat.le_trans (compileInstr_mono i st) (ih (compileInstr i st))

theorem compileBlock_offsets (instrs : List Instr) (st : EmitState) :
    (compileBlock instrs st).offsets = st.offsets := by
  induction instrs generalizing st with
  | nil => rfl
  | cons i rest ih =>
      rw [compileBlock_cons, ih, compileInstr_offsets]

theorem compileBlock_inv (n : Nat) (instrs : List Instr) (st : EmitState)
    (hall : ∀ i ∈ instrs, instrTargetsOK n i = true) (hinv : emitInv n st)
    (hlen : (compileBlock instrs st).buf.length < 2 ^ 32) :
    emitInv n (compileBlock instrs st) := by
  induction instrs generalizing st with
  | nil => exact hinv
  | cons i rest ih =>
      rw [compileBlock_cons] at hlen ⊢
      refine ih (compileInstr i st) (fun j hj => hall j (List.mem_cons_of_mem i hj)) ?_ hlen
      refine compileInstr_inv n i st (hall i (List.mem_cons_self i rest)) hinv ?_
      exact Nat.lt_of_le_of_lt (compileBlock_mono rest (compileInstr i st)) hlen

theorem setOffsets_inv (n : Nat) (st : EmitState) (o : List Nat)
    (hinv : emitInv n st) : emitInv n { st with offsets := o } := hinv

theorem compileBlocks_mono (bs : List (List Instr)) (st : EmitState) :
    st.buf.length ≤ (compileBlocks bs st).buf.length := by
  induction bs generalizing st with
  | nil => exact Nat.le_refl _
  | cons b rest ih =>
      exact Nat.le_trans
        (compileBlock_mono b { st with offsets := st.offsets ++ [st.buf.length] })
        (ih _)

theorem compileBlocks_inv (n : Nat) (bs : List (List Instr)) (st : EmitState)
    (hall : ∀ blk ∈ bs, ∀ i ∈ blk, instrTargetsOK n i = true) (hinv : emitInv n st)
    (hlen : (compileBlocks bs st).buf.length < 2 ^ 32) :
    emitInv n (compileBlocks bs st) := by
  induction bs generalizing st with
  | nil => exact hinv
  | cons b rest ih =>
      rw [compileBlocks] at hlen ⊢
      refine ih _ (fun blk hblk => hall blk (List.mem_cons_of_mem b hblk)) ?_ hlen
      refine compileBlock_inv n b _ (hall b (List.mem_cons_self b rest))
        (setOffsets_inv n st _ hinv) ?_
      exact Nat.lt_of_le_of_lt (compileBlocks_mono rest _) hlen

theorem compileBlocks_offsets_length (bs : List (List Instr)) (st : EmitState) :
    (compileBlocks bs st).offsets.length = st.offsets.length + bs.length := by
  induction bs generalizing st with
  | nil => rfl
  | cons b rest ih =>
      rw [compileBlocks, ih, compileBlock_offsets]
      simp
      omega

theorem phase1_offsets_length (p : Program) :
    (phase1 p).offsets.length = List.length p := by
  unfold phase1
  rw [compileBlocks_offsets_length]
  simp

theorem phase1_inv (p : Program) (hwf : wfProgram p = true)
    (hlen : (phase1 p).buf.length < 2 ^ 32) :
    emitInv (List.length p) (phase1 p) := by
  unfold phase1 at hlen ⊢
  refine compileBlocks_inv _ p _ ?_ ?_ hlen
  · intro blk hblk i hi
    rw [wfProgram, List.all_eq_true] at hwf
    have := hwf blk hblk
    rw [List.all_eq_true] at this
    exact this i hi
  · exact ⟨fun sb hsb => absurd hsb (List.not_mem_nil sb),
      List.Pairwise.nil, fun sb hsb => absurd hsb (List.not_mem_nil sb)⟩

/-! ### Patch-site reads -/

theorem and255_eq_mod (v : Nat) : v &&& 255 = v % 256 := by
  have := Nat.and_pow_two_sub_one_eq_mod v 8
  norm_num at this
  exact this

/-- Recomposing the four emitted bytes little-endian recovers the value
modulo 2^32. -/
theorem bytes_recompose (v : Nat) :
    (v &&& 255) + 256 * ((v >>> 8) &&& 255) + 65536 * ((v >>> 16) &&& 255)
      + 16777216 * ((v >>> 24) &&& 255) = v % 2 ^ 32 := by
  rw [and255_eq_mod, and255_eq_mod, and255_eq_mod, and255_eq_mod,
    Nat.shiftRight_eq_div_pow, Nat.shiftRight_eq_div_pow, Nat.shiftRight_eq_div_pow]
  norm_num
  omega

theorem patch32_length (buf : List Nat) (s v : Nat) :
    (patch32 buf s v).length = buf.length := by
  simp [patch32]

theorem getElem?_patch32_ne (buf : List Nat) (s v j : Nat)
    (h : j < s ∨ s + 4 ≤ j) : (patch32 buf s v)[j]? = buf[j]? := by
  unfold patch32
  rw [List.getElem?_set_ne (by omega), List.getElem?_set_ne (by omega),
    List.getElem?_set_ne (by omega), List.getElem?_set_ne (by omega)]

theorem read32_patch32_self (buf : List Nat) (s v : Nat) (h : s + 4 ≤ buf.length) :
    read32 (patch32 buf s v) s = v % 2 ^ 32 := by
  have h0 : (patch32 buf s v)[s]? = some (v &&& 255) := by
    unfold patch32
    rw [List.getElem?_set_ne (by omega), List.getElem?_set_ne (by omega),
      List.getElem?_set_ne (by omega), List.getElem?_set_self (by simpa using by omega)]
  have h1 : (patch32 buf s v)[s + 1]? = some ((v >>> 8) &&& 255) := by
    unfold patch32
    rw [List.getElem?_set_ne (by omega), List.getElem?_set_ne (by omega),
      List.getElem?_set_self (by simpa using by omega)]
  have h2 : (patch32 buf s v)[s + 2]? = some ((v >>> 16) &&& 255) := by
    unfold patch32
    rw [List.getElem?_set_ne (by omega), List.getElem?_set_self (by simpa using by omega)]
  have h3 : (patch32 buf s v)[s + 3]? = some ((v >>> 24) &&& 255) := by
    unfold patch32
    rw [List.getElem?_set_self (by simpa using by omega)]
  rw [read32, h0, h1, h2, h3]
  simp only [Option.getD_some]
  exact bytes_recompose v

theorem read32_patch32_disjoint (buf : List Nat) (s s2 v : Nat)
    (h : s + 4 ≤ s2 ∨ s2 + 4 ≤ s) : read32 (patch32 buf s2 v) s = read32 buf s := by
  unfold read32
  rw [getElem?_patch32_ne _ _ _ _ (by omega), getElem?_patch32_ne _ _ _ _ (by omega),
    getElem?_patch32_ne _ _ _ _ (by omega), getElem?_patch32_ne _ _ _ _ (by omega)]

/-! ### The patch loop -/

/-- The patch loop flattened into a single job list: each job is a fixup
(site, target block). -/
def applyJobs (offsets : List Nat) (jobs : List (Nat × Nat)) (buf : List Nat) :
    List Nat :=
  jobs.foldl (fun buf sb => patch32 buf sb.1 (dispValue offsets sb.2 sb.1)) buf

theorem applyJobs_cons (offsets : List Nat) (j : Nat × Nat) (rest : List (Nat × Nat))
    (buf : List Nat) :
    applyJobs offsets (j :: rest) buf
      = applyJobs offsets rest (patch32 buf j.1 (dispValue offsets j.2 j.1)) := rfl

theorem foldl_flatMap {α β γ : Type} (L : List α) (g : α → List β) (f : γ → β → γ)
    (init : γ) :
    (L.flatMap g).foldl f init = L.foldl (fun acc a => (g a).foldl f acc) init := by
  induction L generalizing init with
  | nil => rfl
  | cons a rest ih =>
      rw [List.flatMap_cons, List.foldl_append, List.foldl_cons, ih]

/-- phase2 is applyJobs over the fixups grouped by target block. -/
theorem phase2_eq_applyJobs (st : EmitState) :
    phase2 st = applyJobs st.offsets
      ((List.range st.offsets.length).flatMap
        (fun b => st.fixups.filter (fun sb => sb.2 = b)))
      st.buf := by
  rw [phase2, applyJobs, foldl_flatMap]

theorem read32_applyJobs_avoid (offsets : List Nat) (jobs : List (Nat × Nat))
    (buf : List Nat) (s : Nat)
    (hdis : ∀ j ∈ jobs, s + 4 ≤ j.1 ∨ j.1 + 4 ≤ s) :
    read32 (applyJobs offsets jobs buf) s = read32 buf s := by
  induction jobs generalizing buf with
  | nil => rfl
  | cons j rest ih =>
      rw [applyJobs_cons, ih _ (fun j2 hj2 => hdis j2 (List.mem_cons_of_mem j hj2)),
        read32_patch32_disjoint _ _ _ _ (hdis j (List.mem_cons_self j rest))]

theorem applyJobs_length (offsets : List Nat) (jobs : List (Nat × Nat))
    (buf : List Nat) : (applyJobs offsets jobs buf).length = buf.length := by
  induction jobs generalizing buf with
  | nil => rfl
  | cons j rest ih =>
      rw [applyJobs_cons, ih, patch32_length]

/-- Reading back the patched bytes at a job site recovers the job's
displacement value modulo 2^32, provided all job sites fit the buffer and
are pairwise disjoint. -/
theorem read32_applyJobs_hit (offsets : List Nat) (jobs : List (Nat × Nat))
    (buf : List Nat) (s b : Nat)
    (hmem : (s, b) ∈ jobs)
    (hbnd : ∀ j ∈ jobs, j.1 + 4 ≤ buf.length)
    (hdis : jobs.Pairwise (fun a c => a.1 + 4 ≤ c.1 ∨ c.1 + 4 ≤ a.1)) :
    read32 (applyJobs offsets jobs buf) s = dispValue offsets b s % 2 ^ 32 := by
  induction jobs generalizing buf with
  | nil => exact absurd hmem (List.not_mem_nil _)
  | cons j rest ih =>
      rw [List.pairwise_cons] at hdis
      by_cases hj : j.1 = s
      · have hjb : j = (s, b) := by
          rcases List.mem_cons.mp hmem with h | h
          · exact h.symm
          · exact absurd (hdis.1 (s, b) h) (by rw [hj]; omega)
        rw [applyJobs_cons, hjb]
        rw [read32_applyJobs_avoid _ _ _ _ ?_]
        · refine read32_patch32_self _ _ _ ?_
          have := hbnd j (List.mem_cons_self j rest)
          rw [hjb] at this
          exact this
        · intro j2 hj2
          have := hdis.1 j2 hj2
          rw [hjb] at this
          omega
      · have hmem2 : (s, b) ∈ rest := by
          rcases List.mem_cons.mp hmem with h | h
          · exact absurd (congrArg Prod.fst h) (fun hh => hj hh.symm)
          · exact h
        rw [applyJobs_cons]
        refine ih _ hmem2 (fun j2 hj2 => ?_) hdis.2
        rw [patch32_length]
        exact hbnd j2 (List.mem_cons_of_mem j hj2)

/-! ### Grouping the fixups by target block is a permutation -/

theorem flatMap_filter_aux (f : Nat × Nat) (rest : List (Nat × Nat)) :
    ∀ L : List Nat, L.Nodup →
      ((f.2 ∈ L →
        (L.flatMap (fun b => (f :: rest).filter (fun sb => sb.2 = b))).Perm
          (f :: L.flatMap (fun b => rest.filter (fun sb => sb.2 = b)))) ∧
       (f.2 ∉ L →
        L.flatMap (fun b => (f :: rest).filter (fun sb => sb.2 = b))
          = L.flatMap (fun b => rest.filter (fun sb => sb.2 = b)))) := by
  intro L
  induction L with
  | nil =>
      intro _
      exact ⟨fun h => absurd h (List.not_mem_nil _), fun _ => rfl⟩
  | cons b L2 ih =>
      intro hnd
      rw [List.nodup_cons] at hnd
      obtain ⟨ih1, ih2⟩ := ih hnd.2
      by_cases hq : f.2 = b
      · refine ⟨fun _ => ?_, fun hn => absurd (by rw [hq]; exact List.mem_cons_self b L2) hn⟩
        rw [List.flatMap_cons, List.flatMap_cons, List.filter_cons,
          if_pos (by simpa using hq), ih2 (fun hm => hnd.1 (hq ▸ hm))]
        exact List.Perm.refl _
      · have hfilter : (f :: rest).filter (fun sb => sb.2 = b)
            = rest.filter (fun sb => sb.2 = b) := by
          rw [List.filter_cons, if_neg (by simpa using hq)]
        constructor
        · intro hmem
          have hmem2 : f.2 ∈ L2 := by
            rcases List.mem_cons.mp hmem with h | h
            · exact absurd h hq
            · exact h
          rw [List.flatMap_cons, List.flatMap_cons, hfilter]
          refine ((ih1 hmem2).append_left _).trans ?_
          exact List.perm_middle
        · intro hn
          rw [List.flatMap_cons, List.flatMap_cons, hfilter,
            ih2 (fun hm => hn (List.mem_cons_of_mem b hm))]

theorem flatMap_filter_perm (n : Nat) :
    ∀ fixups : List (Nat × Nat), (∀ sb ∈ fixups, sb.2 < n) →
      ((List.range n).flatMap (fun b => fixups.filter (fun sb => sb.2 = b))).Perm
        fixups := by
  intro fixups
  induction fixups with
  | nil =>
      intro _
      simp
  | cons f rest ih =>
      intro ht
      have hf : f.2 ∈ List.range n :=
        List.mem_range.mpr (ht f (List.mem_cons_self f rest))
      refine ((flatMap_filter_aux f rest (List.range n) (List.nodup_range n)).1 hf).trans ?_
      exact (ih (fun sb hsb => ht sb (List.mem_cons_of_mem f hsb))).cons f

/-- The displacement value written in phase 2, modulo 2^32: the size_t
subtraction block->offset − S − 4 reduced to 32 bits is the two's-complement
32-bit displacement. -/
theorem dispValue_mod (offsets : List Nat) (b s : Nat) :
    dispValue offsets b s % 2 ^ 32
      = (((offsets.getD b 0 : Int) - s - 4).emod (2 ^ 32)).toNat := by
  unfold dispValue
  set X : Int := (offsets.getD b 0 : Int) - s - 4 with hX
  have hd : ((2 : Int) ^ 32) ∣ 2 ^ 64 := ⟨2 ^ 32, by norm_num⟩
  have he : (X.emod (2 ^ 64)).emod (2 ^ 32) = X.emod (2 ^ 32) := Int.emod_emod_of_dvd X hd
  have h64 : 0 ≤ X.emod (2 ^ 64) := Int.emod_nonneg X (by norm_num)
  have h32 : 0 ≤ X.emod (2 ^ 32) := Int.emod_nonneg X (by norm_num)
  have hc : (((X.emod (2 ^ 64)).toNat % 2 ^ 32 : Nat) : Int)
      = (((X.emod (2 ^ 32)).toNat : Nat) : Int) := by
    rw [Int.natCast_mod, Int.toNat_of_nonneg h64, Int.toNat_of_nonneg h32]
    simpa using he
  exact_mod_cast hc

/-- C6: After the fixup-resolution phase of Jit::compile, for every fixup
recorded at buffer offset S targeting block B, the four bytes at [S, S+4)
hold the 32-bit little-endian (two's-complement) value B.offset − S − 4.
The hypotheses hold for every program Jit::compile actually receives: jump
operands are C++ block references, and the buffer must fit the 4096-byte
executable region (far below 2^32). -/
theorem C6_fixup_displacements (p : Program) (hwf : wfProgram p = true)
    (hlen : (phase1 p).buf.length < 2 ^ 32) :
    ∀ s b, (s, b) ∈ (phase1 p).fixups →
      read32 (phase2 (phase1 p)) s
        = ((((phase1 p).offsets.getD b 0 : Int) - s - 4).emod (2 ^ 32)).toNat := by
  intro s b hmem
  obtain ⟨hb, hp, ht⟩ := phase1_inv p hwf hlen
  have hofflen : (phase1 p).offsets.length = List.length p := phase1_offsets_length p
  have hperm := flatMap_filter_perm ((phase1 p).offsets.length) (phase1 p).fixups
    (by rw [hofflen]; exact ht)
  rw [phase2_eq_applyJobs]
  have hjobsP : ((List.range ((phase1 p).offsets.length)).flatMap
      (fun b2 => (phase1 p).fixups.filter (fun sb => sb.2 = b2))).Pairwise
      (fun a c => a.1 + 4 ≤ c.1 ∨ c.1 + 4 ≤ a.1) := by
    refine (List.Perm.pairwise_iff ?_ hperm).mpr ?_
    · intro a c h
      omega
    · exact hp.imp (fun h => Or.inl h)
  rw [read32_applyJobs_hit _ _ _ s b (hperm.mem_iff.mpr hmem)
    (fun j hj => hb j (hperm.subset hj)) hjobsP]
  exact dispValue_mod _ b s

/-- Witness for C6 on the two-block program [Jump block1], [Exit]: one fixup
at offset 1 targeting block 1, whose patched bytes read back as
5 − 1 − 4 = 0. -/
theorem C6_fixup_displacements_witness :
    wfProgram [[Instr.jump 1], [Instr.exit]] = true ∧
    (phase1 [[Instr.jump 1], [Instr.exit]]).buf.length < 2 ^ 32 ∧
    ∀ s b, (s, b) ∈ (phase1 [[Instr.jump 1], [Instr.exit]]).fixups →
      read32 (phase2 (phase1 [[Instr.jump 1], [Instr.exit]])) s
        = ((((phase1 [[Instr.jump 1], [Instr.exit]]).offsets.getD b 0 : Int) - s - 4).emod
            (2 ^ 32)).toNat :=
  ⟨by decide, by decide, C6_fixup_displacements _ (by decide) (by decide)⟩

end VMJ
